import Mathlib

/-!
Verification of the type-level utilities of the typedex repository
(`src/indexed-db/src/lib/greater-than.types.ts` and
`src/indexed-db/src/lib/migration-builder.types.ts`).

The TypeScript code computes entirely at the type level.  The shallow
embedding below models:
* number literal types as `Int` (finite integers, stringified in decimal,
  which is how `${N}` behaves for ordinary integer literals);
* template-literal strings as `List Char`;
* the fragment of the TypeScript type language that store value types
  inhabit (records with literal keys, primitives, arrays, tuples, unions,
  `undefined`, `never` and the `IDBValidKey` union) as the inductive `Ty`.

Every definition is translated clause by clause from the source file it
names; definitions whose name matches a TypeScript type alias embed that
alias.
-/

namespace Typedex

/-- Character-list form of a string literal, the representation used for
TypeScript template-literal strings throughout this development. -/
def cs (s : String) : List Char := s.data

/-! Definitions for `greater-than.types.ts`. -/

/-- The `DigitString` alias: the string `'0123456789'`. -/
def digitString : List Char := cs "0123456789"

/-- Whether a character is one of the members of the `Digit` union
(`'0' | ... | '9'`), i.e. whether `infer D extends Digit` can match it. -/
def isDigitChar (c : Char) : Bool := digitString.contains c

/-- Semantics of the template-literal test
`` S extends `${string}${B}${string}${A}${string}` ``:
some occurrence of `b` in the list is followed (strictly later) by an
occurrence of `a`.   Scanning from the first occurrence of `b` is
equivalent because any later occurrence of `b` leaves fewer characters. -/
def occursLaterIn (b a : Char) : List Char → Bool
| [] => false
| c :: rest => if c = b then rest.contains a else occursLaterIn b a rest

/-- The `DigitGreaterThan<A, B>` alias: `A extends B ? false :`
the template-literal membership test on `DigitString`. -/
def DigitGreaterThan (a b : Char) : Bool :=
  if a = b then false else occursLaterIn b a digitString

/-- The `CompareSameLengthPositive<A, B>` alias, returning `1`, `-1` or `0`.
The two `infer D extends Digit` matches become the digit-character guards. -/
def CompareSameLengthPositive : List Char → List Char → Int
| [], _ => 0
| a :: restA, B =>
  if isDigitChar a then
    match B with
    | [] => 0
    | b :: restB =>
      if isDigitChar b then
        if a = b then CompareSameLengthPositive restA restB
        else if DigitGreaterThan a b then 1 else -1
      else 0
  else 0

/-- The `IsLonger<A, B>` alias: strip one character from each side
(`` `${string}${infer Rest}` `` matches exactly one leading character). -/
def IsLonger : List Char → List Char → Bool
| [], _ => false
| _ :: _, [] => true
| _ :: restA, _ :: restB => IsLonger restA restB

/-- The `PositiveStringGreaterThan<A, B>` alias. -/
def PositiveStringGreaterThan (A B : List Char) : Bool :=
  if IsLonger A B then true
  else if IsLonger B A then false
  else if CompareSameLengthPositive A B = 1 then true else false

/-- The character for a decimal digit value (`0 ↦ '0'`, ..., `9 ↦ '9'`). -/
def digitChar (d : Nat) : Char := Char.ofNat (48 + d)

/-- Fuel-driven little-endian decimal digit extraction.  Structural
recursion on the fuel keeps it kernel-reducible; with fuel `n` it agrees
with `Nat.digits 10 n` (proved below). -/
def decDigitsCore : Nat → Nat → List Nat
| 0, _ => []
| _ + 1, 0 => []
| fuel + 1, n + 1 => (n + 1) % 10 :: decDigitsCore fuel ((n + 1) / 10)

/-- Little-endian decimal digit values of a natural number. -/
def natDecDigits (n : Nat) : List Nat := decDigitsCore n n

/-- Big-endian decimal digit values of a natural number (`0 ↦ [0]`). -/
def decDigitsBE (n : Nat) : List Nat :=
  if n = 0 then [0] else (natDecDigits n).reverse

/-- Decimal string of a natural number, as produced by `${N}` for an
ordinary (non-exponential) integer literal. -/
def toDecString (n : Nat) : List Char := (decDigitsBE n).map digitChar

/-- The string `${N}` of an integer literal: a minus sign followed by the
decimal digits when negative, the decimal digits otherwise. -/
def numToString (n : Int) : List Char :=
  if n < 0 then '-' :: toDecString n.natAbs else toDecString n.natAbs

/-- Semantics of `` S extends `-${string}` ``: the first character is `'-'`. -/
def startsWithMinus (s : List Char) : Bool :=
  match s with
  | c :: _ => c == '-'
  | [] => false

/-- The `IsNegative<N>` alias: `` `${N}` extends `-${string}` ``. -/
def IsNegative (n : Int) : Bool := startsWithMinus (numToString n)

/-- Semantics of `` S extends `-${infer Abs}` ? Abs : S ``. -/
def stripMinus (s : List Char) : List Char :=
  match s with
  | c :: rest => if c = '-' then rest else s
  | [] => s

/-- The `AbsoluteString<N>` alias: strip the leading minus of `${N}`. -/
def AbsoluteString (n : Int) : List Char := stripMinus (numToString n)

/-- The `CompareFinite<A, B>` alias, matching on the sign pair
`[IsNegative<A>, IsNegative<B>]`. -/
def CompareFinite (a b : Int) : Bool :=
  match IsNegative a, IsNegative b with
  | true, true => PositiveStringGreaterThan (AbsoluteString b) (AbsoluteString a)
  | true, false => false
  | false, true => true
  | false, false => PositiveStringGreaterThan (AbsoluteString a) (AbsoluteString b)

/-- The `IsGreaterThan<A, B>` alias restricted to finite integer literals.
For a finite number literal `L` each of the four infinity tests
`IsEqual<L, typeof Infinity>` (`typeof Infinity` is the broad `number`)
and `IsEqual<L, typeof NegativeInfinity>` (a `unique symbol`) is `false`,
so the alias reduces to `CompareFinite<A, B>`. -/
def IsGreaterThan (a b : Int) : Bool := CompareFinite a b

/-- The `LessThan<A, B>` alias: `IsGreaterThan<B, A>`. -/
def LessThan (a b : Int) : Bool := IsGreaterThan b a

/-- The `GreaterThanOrEqual<A, B>` alias: for number literals `A extends B`
holds exactly when the literals are equal. -/
def GreaterThanOrEqual (a b : Int) : Bool :=
  if a = b then true else IsGreaterThan a b

/-- The `LessThanOrEqual<A, B>` alias. -/
def LessThanOrEqual (a b : Int) : Bool :=
  if a = b then true else LessThan a b

/-- Value of a big-endian list of decimal digit values. -/
def digitsVal : List Nat → Nat
| [] => 0
| d :: rest => d * 10 ^ rest.length + digitsVal rest

/-! Definitions for `migration-builder.types.ts`.

Store value types inhabit the fragment of the TypeScript type language
below: `never`, `undefined`, `boolean`, the broad `number` and `string`,
numeric literal types, `Date`, `BufferSource`, the `IDBValidKey` union
itself, binary unions, arrays, tuples and object types with literal keys
(each field carrying its optionality flag).  Conditional-type tests of
the source are embedded as functions on this fragment.  Indexed access
and `keyof` on a union resolve its common keys to the union of the
members' field types (`(A | B)[K] = A[K] | B[K]`); a conditional whose
checked type is a naked type parameter (the empty-path
`T extends IDBValidKey` test, the `E extends IDBValidKey` test inside
`ValidateMultiEntryIndex`) distributes over that parameter's union
members, while every other `extends` test treats a union
non-distributively (every member must be assignable).  Union members are
the already-normalized members of a TypeScript union; `never` arises
only as the result of a failed resolution. -/

inductive Ty where
| never : Ty
| undefined : Ty
| boolean : Ty
| num : Ty
| numLit (n : Int) : Ty
| str : Ty
| date : Ty
| buffer : Ty
| idbKey : Ty
| union (a b : Ty) : Ty
| arr (elem : Ty) : Ty
| tuple (elems : List Ty) : Ty
| obj (fields : List (List Char × Bool × Ty)) : Ty

mutual

/-- The test `T extends IDBValidKey` on the fragment
(`IDBValidKey = number | string | Date | BufferSource | IDBValidKey[]`):
`never` extends everything; a union extends it when both members do; an
array extends it when its element type does; a tuple when every component
does; object types, `boolean` and `undefined` do not. -/
def extendsIDBValidKey : Ty → Bool
| .never => true
| .undefined => false
| .boolean => false
| .num => true
| .numLit _ => true
| .str => true
| .date => true
| .buffer => true
| .idbKey => true
| .union a b => extendsIDBValidKey a && extendsIDBValidKey b
| .arr e => extendsIDBValidKey e
| .tuple es => extendsIDBValidKeyList es
| .obj _ => false

/-- Componentwise `extends IDBValidKey` over a tuple's components. -/
def extendsIDBValidKeyList : List Ty → Bool
| [] => true
| t :: rest => extendsIDBValidKey t && extendsIDBValidKeyList rest

end

/-- Association-list lookup with string keys (first match wins), the
analogue of indexing a mapped/object type at a literal key. -/
def lookupA {α : Type} : List (List Char × α) → List Char → Option α
| [], _ => none
| (n, v) :: rest, k => if n = k then some v else lookupA rest k

/-- The distributive form of the naked-parameter test
`T extends IDBValidKey ? Path : never`: the conditional distributes over
the union members of `T`, and the union of the per-member results keeps
the path exactly when at least one member is a valid IDB key (`never`
has no members, so the result is `never`). -/
def anyMemberValidKey : Ty → Bool
| .union a b => anyMemberValidKey a || anyMemberValidKey b
| .never => false
| t => extendsIDBValidKey t

/-- The combined test `K extends keyof T` plus the indexed access `T[K]`
on the fragment: an object type resolves its literal keys (an optional
field reads back as `fieldtype | undefined`, as indexed access does in
TypeScript); a union resolves its common keys,
`keyof (A | B) = keyof A ∩ keyof B`, with `(A | B)[K] = A[K] | B[K]`;
other types have no members (store value records never index into
primitive method keys). -/
def lookupMember : Ty → List Char → Option Ty
| .obj fields, k =>
  (match lookupA fields k with
   | some (opt, t) => some (if opt then .union t .undefined else t)
   | none => none)
| .union a b, k =>
  (match lookupMember a k, lookupMember b k with
   | some ta, some tb => some (.union ta tb)
   | _, _ => none)
| _, _ => none

/-- The test `number extends R`: `number` is assignable to `R` when `R`
is `number` itself, the `IDBValidKey` union (which contains `number`), or
a union with an admitting member. -/
def numberExtendsRev : Ty → Bool
| .num => true
| .idbKey => true
| .union a b => numberExtendsRev a || numberExtendsRev b
| _ => false

/-- The test `R extends number`: `R` is assignable to `number` when `R`
is `number`, a numeric literal, `never`, or a union of such. -/
def extendsNumber : Ty → Bool
| .num => true
| .numLit _ => true
| .never => true
| .union a b => extendsNumber a && extendsNumber b
| _ => false

/-- Split a template-literal string at its first `'.'`, the semantics of
`` Path extends `${infer First}.${infer Rest}` ``; the returned
certificate that the remainder is shorter feeds the termination of the
recursive path walkers. -/
def breakDot : (s : List Char) → Option {pr : List Char × List Char // pr.2.length < s.length}
| [] => none
| c :: rest =>
  if c = '.' then some ⟨([], rest), by simp⟩
  else
    match breakDot rest with
    | some ⟨(pre, post), h⟩ => some ⟨(c :: pre, post), by simp at h ⊢; omega⟩
    | none => none

/-- The key-path types a `Path` parameter ranges over:
`undefined`, a string literal, a literal tuple of string literals, or the
widened `readonly string[]`. -/
inductive PathTy where
| undefined : PathTy
| strPath (s : List Char) : PathTy
| tupPath (elems : List (List Char)) : PathTy
| widenedArr : PathTy
deriving DecidableEq

/-- The `ValidateStringPath<T, Path>` alias (returns the path when valid,
`never` — here `none` — when not): the empty path is valid when the
distributive `T extends IDBValidKey` test keeps at least one union
member of `T`; a dotted path recurses through the first segment; a plain
segment must be a property whose type (as a whole — the indexed access
is not a naked parameter) is a valid IDB key. -/
def ValidateStringPath (T : Ty) (path : List Char) : Option (List Char) :=
  if path = [] then
    if anyMemberValidKey T then some path else none
  else
    match breakDot path with
    | some ⟨(first, rest), _⟩ =>
      match lookupMember T first with
      | some ty =>
        match ValidateStringPath ty rest with
        | none => none
        | some _ => some path
      | none => none
    | none =>
      match lookupMember T path with
      | some ty => if extendsIDBValidKey ty then some path else none
      | none => none
termination_by path.length

/-- Dot-separated segments of a path, obtained by iterating the
first-dot split (so `''` gives `['']`, `'a.b'` gives `['a','b']`,
`'a.'` gives `['a','']`); the output is always nonempty. -/
def splitSegs (p : List Char) : List (List Char) :=
  match breakDot p with
  | some ⟨(first, rest), _⟩ => first :: splitSegs rest
  | none => [p]
termination_by p.length

/-- Modelled from claim C3's wording, with the empty-segment clause in
the amended distributive form the source implements: validity of a path
presented as its list of dot-separated segments — the final empty
segment is valid when the distributive valid-key test keeps at least one
member of the type reached, a final plain segment must be a property
whose type is a valid IDB key, and every earlier segment must be a
property of the type reached so far. -/
def validPathSpec : Ty → List (List Char) → Bool
| _, [] => false
| T, [s] =>
  if s = [] then anyMemberValidKey T
  else
    match lookupMember T s with
    | some ty => extendsIDBValidKey ty
    | none => false
| T, s :: rest =>
  match lookupMember T s with
  | some ty => validPathSpec ty rest
  | none => false

/-- The `ResolveSingleKeyPath<T, Path>` alias: follow the dotted path
through `T`, `never` when a segment is not a property. -/
def ResolveSingleKeyPath (T : Ty) (path : List Char) : Ty :=
  match breakDot path with
  | some ⟨(first, rest), _⟩ =>
    match lookupMember T first with
    | some ty => ResolveSingleKeyPath ty rest
    | none => .never
  | none =>
    match lookupMember T path with
    | some ty => ty
    | none => .never
termination_by path.length

/-- Modelled from claim C6's wording: the type obtained by following each
dot-separated segment through `T` in turn, `never` as soon as a segment
is not a property of the type reached so far. -/
def followSegments : Ty → List (List Char) → Ty
| T, [] => T
| T, s :: rest =>
  match lookupMember T s with
  | some ty => followSegments ty rest
  | none => .never

/-- The `ResolveArrayKeyPath<T, Paths>` alias: the tuple of the types the
individual paths resolve to. -/
def ResolveArrayKeyPath (T : Ty) : List (List Char) → List Ty
| [] => []
| f :: rest => ResolveSingleKeyPath T f :: ResolveArrayKeyPath T rest

/-- The `ResolveKeyPath<T, Path>` alias.  `undefined` (out-of-line keys)
resolves to `IDBValidKey`; array paths are checked before string paths,
so the widened `readonly string[]` resolves through `ResolveArrayKeyPath`
to the empty tuple. -/
def ResolveKeyPath (T : Ty) (p : PathTy) : Ty :=
  match p with
  | .undefined => .idbKey
  | .tupPath es => .tuple (ResolveArrayKeyPath T es)
  | .widenedArr => .tuple []
  | .strPath s => ResolveSingleKeyPath T s

/-- Body of the `ValidateArrayPath<T, Path, OriginalT>` alias on literal
tuples: the head element (dotted or plain) is checked against `T`, the
tail is re-checked against `OriginalT`; the empty tuple is accepted. -/
def ValidateArrayPathTuple (T OriginalT : Ty) :
    List (List Char) → Option (List (List Char))
| [] => some []
| first :: rest =>
  match breakDot first with
  | some ⟨(k, nested), _⟩ =>
    match lookupMember T k with
    | some ty =>
      match ValidateStringPath ty nested with
      | none => none
      | some _ =>
        match rest with
        | [] => some (first :: rest)
        | _ :: _ =>
          match ValidateArrayPathTuple OriginalT OriginalT rest with
          | none => none
          | some _ => some (first :: rest)
    | none => none
  | none =>
    match lookupMember T first with
    | some ty =>
      if extendsIDBValidKey ty then
        match rest with
        | [] => some (first :: rest)
        | _ :: _ =>
          match ValidateArrayPathTuple OriginalT OriginalT rest with
          | none => none
          | some _ => some (first :: rest)
      else none
    | none => none

/-- The `ValidateArrayPath<T, Path, OriginalT>` alias: literal tuples are
validated element by element, the widened `readonly string[]` is accepted
unchecked, anything else is `never`. -/
def ValidateArrayPath (T : Ty) (p : PathTy) (OriginalT : Ty) : Option PathTy :=
  match p with
  | .tupPath es =>
    match ValidateArrayPathTuple T OriginalT es with
    | some _ => some (.tupPath es)
    | none => none
  | .widenedArr => some .widenedArr
  | _ => none

/-- The `ValidateKeyPath<T, Path>` alias: `undefined` passes through,
string paths go to `ValidateStringPath`, array paths to
`ValidateArrayPath` (with `OriginalT` defaulted to `T`). -/
def ValidateKeyPath (T : Ty) (p : PathTy) : Option PathTy :=
  match p with
  | .undefined => some .undefined
  | .strPath s =>
    match ValidateStringPath T s with
    | some _ => some (.strPath s)
    | none => none
  | .tupPath _ => ValidateArrayPath T p T
  | .widenedArr => ValidateArrayPath T p T

/-- Modelled from claim C10's wording: the per-element check of a literal
tuple path — a dotted element's head must be a property of the original
type and its tail must validate from there; a plain element must be a
property whose type is a valid IDB key. -/
def elementOk (T : Ty) (e : List Char) : Bool :=
  match breakDot e with
  | some ⟨(k, nested), _⟩ =>
    match lookupMember T k with
    | some ty => (ValidateStringPath ty nested).isSome
    | none => false
  | none =>
    match lookupMember T e with
    | some ty => extendsIDBValidKey ty
    | none => false

/-- The `ValidateAutoIncrementKey<T, Path, AutoIncrement>` alias:
with `AutoIncrement` the literal `true`, a string path is accepted when
`number extends R` or `R extends number` holds of the resolved type `R`,
`undefined` (out-of-line) is accepted, and array paths are rejected;
otherwise (`false` or `undefined`) every path passes through. -/
def ValidateAutoIncrementKey (T : Ty) (p : PathTy) (auto : Option Bool) :
    Option PathTy :=
  match auto with
  | some true =>
    match p with
    | .strPath s =>
      if numberExtendsRev (ResolveSingleKeyPath T s) then some p
      else if extendsNumber (ResolveSingleKeyPath T s) then some p
      else none
    | .undefined => some p
    | _ => none
  | _ => some p

/-- A version-parameter type: the broad `number` or a numeric literal. -/
inductive NumTy where
| broad : NumTy
| lit (n : Int) : NumTy
deriving DecidableEq

/-- Result type of `ValidateVersion`: the version type itself or a
string-literal error type. -/
inductive VersionTy where
| numTy (v : NumTy) : VersionTy
| strTy (s : List Char) : VersionTy
deriving DecidableEq

/-- The `ValidateVersion<V, PrevVersion>` alias: `number extends V`
detects a non-literal version; the first version passes through; later
versions must be strictly greater than the previous one, the error
message interpolating `${PrevVersion}`. -/
def ValidateVersion (V : NumTy) (Prev : Option Int) : VersionTy :=
  match V with
  | .broad => .strTy (cs "specific numeric literal or static constant (e.g. 1, 2, 3, …)")
  | .lit n =>
    match Prev with
    | none => .numTy (.lit n)
    | some p =>
      if IsGreaterThan n p then .numTy (.lit n)
      else .strTy (cs "integer greater than " ++ numToString p)

/-- A Zod schema of the fragment: a schema inferring a type, possibly
wrapped in `z.optional`. -/
inductive Zod where
| base (t : Ty) : Zod
| zodOptional (inner : Zod) : Zod

/-- The `IsZodOptional<T>` alias: `T extends z.ZodOptional<any>`. -/
def IsZodOptional : Zod → Bool
| .zodOptional _ => true
| .base _ => false

/-- The inference `z.infer<T>`: `z.infer` of `z.optional(s)` is
`z.infer(s) | undefined`. -/
def zodInfer : Zod → Ty
| .base t => t
| .zodOptional z => .union (zodInfer z) .undefined

/-- A value of the `Changes` record: a Zod schema, or a function
`(prev) => schema`. -/
inductive ChangeVal where
| schema (z : Zod) : ChangeVal
| fn (ret : Zod) : ChangeVal

/-- The `InferZodType<T>` alias: infer from the schema, or from the
return schema of a schema-returning function. -/
def InferZodType : ChangeVal → Ty
| .schema z => zodInfer z
| .fn r => zodInfer r

/-- Whether a change's (possibly function-returned) schema is optional,
as tested inside the `OptionalKeys<Changes>` mapped type. -/
def changeIsOptional : ChangeVal → Bool
| .schema z => IsZodOptional z
| .fn r => IsZodOptional r

/-- The membership test `K extends keyof Changes` used by
`Omit<T, keyof Changes>`. -/
def changesHasKey (changes : List (List Char × ChangeVal)) (k : List Char) : Bool :=
  changes.any (fun kc => decide (kc.1 = k))

/-- The `OptionalKeys<Changes>` alias: the keys whose (possibly
function-returned) schema is `z.ZodOptional`. -/
def OptionalKeysChanges (changes : List (List Char × ChangeVal)) : List (List Char) :=
  (changes.filter (fun kc => changeIsOptional kc.2)).map Prod.fst

/-- The `RequiredKeys<Changes>` alias,
`Exclude<keyof Changes, OptionalKeys<Changes>>`. -/
def RequiredKeysChanges (changes : List (List Char × ChangeVal)) : List (List Char) :=
  (changes.filter (fun kc => !changeIsOptional kc.2)).map Prod.fst

/-- A mapped type `{[K in Keys]: InferZodType<Changes[K]>}` with the
given optionality modifier, as a field list. -/
def mappedChangeFields (changes : List (List Char × ChangeVal))
    (keys : List (List Char)) (optFlag : Bool) : List (List Char × Bool × Ty) :=
  keys.map (fun k =>
    (k, optFlag,
      match lookupA changes k with
      | some c => InferZodType c
      | none => Ty.never))

/-- The member-level body of `MergeSchemaChanges<T, Changes>`:
`Omit<T, keyof Changes> & {[K in RequiredKeys]: ...} &
{[K in OptionalKeys]?: ...}`, an intersection of records with disjoint
key sets represented by field-list concatenation. -/
def MergeSchemaChangesMember (m : List (List Char × Bool × Ty))
    (changes : List (List Char × ChangeVal)) : List (List Char × Bool × Ty) :=
  (m.filter (fun f => !changesHasKey changes f.1)) ++
  mappedChangeFields changes (RequiredKeysChanges changes) false ++
  mappedChangeFields changes (OptionalKeysChanges changes) true

/-- The `MergeSchemaChanges<T, Changes>` alias: `T extends any ? ... :
never` distributes over the members of the union `T`, here a list of
object members (each a field list). -/
def MergeSchemaChanges (T : List (List (List Char × Bool × Ty)))
    (changes : List (List Char × ChangeVal)) :
    List (List (List Char × Bool × Ty)) :=
  T.map (fun m => MergeSchemaChangesMember m changes)

/-- The `UpdateStore<S, StoreName, NewStoreInfo>` mapped type over the
key set `keyof S | StoreName`: existing keys keep their order (the named
one replaced), and a fresh `StoreName` is appended. -/
def UpdateStore {α : Type} (S : List (List Char × α)) (name : List Char)
    (info : α) : List (List Char × α) :=
  (S.map (fun kv => if kv.1 = name then (kv.1, info) else kv)) ++
  (if S.any (fun kv => decide (kv.1 = name)) then [] else [(name, info)])

end Typedex

namespace Typedex

theorem decDigitsCore_eq : ∀ fuel n : Nat, n ≤ fuel →
    decDigitsCore fuel n = Nat.digits 10 n := by
  intro fuel
  induction fuel with
  | zero =>
    intro n hn
    interval_cases n
    simp [decDigitsCore]
  | succ f ih =>
    intro n hn
    match n with
    | 0 => simp [decDigitsCore]
    | m + 1 =>
      rw [decDigitsCore]
      rw [Nat.digits_def' (b := 10) (by norm_num) (Nat.succ_pos m)]
      rw [ih ((m + 1) / 10) (by omega)]

theorem natDecDigits_eq (n : Nat) : natDecDigits n = Nat.digits 10 n :=
  decDigitsCore_eq n n le_rfl

theorem digitChar_inj : ∀ a : Nat, a < 10 → ∀ b : Nat, b < 10 →
    digitChar a = digitChar b → a = b := by decide

theorem isDigitChar_digitChar : ∀ d : Nat, d < 10 →
    isDigitChar (digitChar d) = true := by decide

theorem digitChar_ne_minus : ∀ d : Nat, d < 10 → digitChar d ≠ '-' := by decide

theorem DigitGreaterThan_correct : ∀ a : Nat, a < 10 → ∀ b : Nat, b < 10 →
    DigitGreaterThan (digitChar a) (digitChar b) = decide (b < a) := by decide

theorem digitsVal_append (xs ys : List Nat) :
    digitsVal (xs ++ ys) = digitsVal xs * 10 ^ ys.length + digitsVal ys := by
  induction xs with
  | nil => simp [digitsVal]
  | cons x xs ih =>
    show x * 10 ^ (xs ++ ys).length + digitsVal (xs ++ ys) = _
    rw [ih, List.length_append, pow_add]
    simp only [digitsVal]
    ring

theorem digitsVal_reverse (l : List Nat) :
    digitsVal l.reverse = Nat.ofDigits 10 l := by
  induction l with
  | nil => simp [digitsVal, Nat.ofDigits]
  | cons d l ih =>
    rw [List.reverse_cons, digitsVal_append, ih, Nat.ofDigits_cons]
    simp [digitsVal]
    ring

theorem digitsVal_lt (l : List Nat) (h : ∀ d ∈ l, d < 10) :
    digitsVal l < 10 ^ l.length := by
  induction l with
  | nil => simp [digitsVal]
  | cons d l ih =>
    have hd : d < 10 := h d (by simp)
    have hl := ih (fun x hx => h x (by simp [hx]))
    simp only [digitsVal, List.length_cons, pow_succ]
    nlinarith

theorem decDigitsBE_val (n : Nat) : digitsVal (decDigitsBE n) = n := by
  unfold decDigitsBE
  split
  · simp [digitsVal]; omega
  · rw [natDecDigits_eq, digitsVal_reverse, Nat.ofDigits_digits]

theorem decDigitsBE_lt10 (n : Nat) : ∀ d ∈ decDigitsBE n, d < 10 := by
  unfold decDigitsBE
  split
  · intro d hd
    simp only [List.mem_singleton] at hd
    omega
  · intro d hd
    rw [natDecDigits_eq, List.mem_reverse] at hd
    exact Nat.digits_lt_base (by norm_num) hd

theorem decDigitsBE_ne_nil (n : Nat) : decDigitsBE n ≠ [] := by
  unfold decDigitsBE
  split
  · simp
  · rw [natDecDigits_eq]
    simp only [ne_eq, List.reverse_eq_nil_iff]
    exact Nat.digits_ne_nil_iff_ne_zero.mpr (by assumption)

theorem decDigitsBE_length (n : Nat) (hn : n ≠ 0) :
    (decDigitsBE n).length = Nat.log 10 n + 1 := by
  unfold decDigitsBE
  rw [if_neg hn, natDecDigits_eq, List.length_reverse,
    Nat.digits_len 10 n (by norm_num) hn]

theorem decDigitsBE_length_zero : (decDigitsBE 0).length = 1 := by decide

theorem decDigitsBE_length_lt (m n : Nat)
    (h : (decDigitsBE m).length < (decDigitsBE n).length) : m < n := by
  by_cases hn : n = 0
  · subst hn
    rw [decDigitsBE_length_zero] at h
    by_cases hm : m = 0
    · subst hm; rw [decDigitsBE_length_zero] at h; omega
    · rw [decDigitsBE_length m hm] at h; omega
  · by_cases hm : m = 0
    · omega
    · rw [decDigitsBE_length m hm, decDigitsBE_length n hn] at h
      have h1 : m < 10 ^ (Nat.log 10 m + 1) :=
        Nat.lt_pow_succ_log_self (by norm_num) m
      have h2 : 10 ^ Nat.log 10 n ≤ n := Nat.pow_log_le_self 10 hn
      have h3 : 10 ^ (Nat.log 10 m + 1) ≤ 10 ^ Nat.log 10 n :=
        Nat.pow_le_pow_right (by norm_num) (by omega)
      omega

theorem IsLonger_eq : ∀ A B : List Char,
    IsLonger A B = decide (B.length < A.length) := by
  intro A
  induction A with
  | nil => intro B; simp [IsLonger]
  | cons a A ih =>
    intro B
    match B with
    | [] => simp [IsLonger]
    | b :: B =>
      rw [IsLonger, ih]
      simp only [List.length_cons, decide_eq_decide]
      omega

theorem ifChainAdd (c x y : Nat) :
    (if c + y < c + x then (1 : Int) else if c + x = c + y then 0 else -1)
    = (if y < x then (1 : Int) else if x = y then 0 else -1) := by
  split_ifs <;> omega

theorem digitsVal_lt_of_head_lt {a b : Nat} {A B : List Nat}
    (hlen : A.length = B.length) (hab : b < a) (hB : ∀ d ∈ B, d < 10) :
    digitsVal (b :: B) < digitsVal (a :: A) := by
  have h1 : digitsVal B < 10 ^ B.length := digitsVal_lt B hB
  have h2 : (b + 1) * 10 ^ B.length ≤ a * 10 ^ B.length :=
    Nat.mul_le_mul_right _ (by omega)
  simp only [digitsVal, hlen]
  nlinarith

theorem CSLP_correct : ∀ A B : List Nat, A.length = B.length →
    (∀ d ∈ A, d < 10) → (∀ d ∈ B, d < 10) →
    CompareSameLengthPositive (A.map digitChar) (B.map digitChar) =
      if digitsVal B < digitsVal A then 1
      else if digitsVal A = digitsVal B then 0 else -1 := by
  intro A
  induction A with
  | nil =>
    intro B hlen _ _
    have hB : B = [] := List.length_eq_zero.mp hlen.symm
    subst hB
    simp [CompareSameLengthPositive, digitsVal]
  | cons a A ih =>
    intro B hlen hA hB
    match B with
    | [] => simp at hlen
    | b :: B =>
      have ha : a < 10 := hA a (by simp)
      have hb : b < 10 := hB b (by simp)
      have hlen' : A.length = B.length := by simpa using hlen
      have hA' : ∀ d ∈ A, d < 10 := fun x hx => hA x (by simp [hx])
      have hB' : ∀ d ∈ B, d < 10 := fun x hx => hB x (by simp [hx])
      simp only [List.map_cons, CompareSameLengthPositive,
        isDigitChar_digitChar a ha, isDigitChar_digitChar b hb, if_true]
      by_cases hab : a = b
      · subst hab
        rw [if_pos rfl, ih B hlen' hA' hB']
        simp only [digitsVal, hlen']
        exact (ifChainAdd (a * 10 ^ B.length) (digitsVal A) (digitsVal B)).symm
      · rw [if_neg (fun hc => hab (digitChar_inj a ha b hb hc)),
          DigitGreaterThan_correct a ha b hb]
        by_cases hba : b < a
        · rw [if_pos (by simpa using hba),
            if_pos (digitsVal_lt_of_head_lt hlen' hba hB')]
        · have hab' : a < b := by omega
          have hlt : digitsVal (a :: A) < digitsVal (b :: B) :=
            digitsVal_lt_of_head_lt hlen'.symm hab' hA'
          rw [if_neg (by simpa using hba), if_neg (by omega), if_neg (by omega)]

theorem PSGT_dec (m n : Nat) :
    PositiveStringGreaterThan (toDecString m) (toDecString n) = decide (n < m) := by
  unfold PositiveStringGreaterThan toDecString
  rw [IsLonger_eq, IsLonger_eq]
  simp only [List.length_map, decide_eq_true_eq]
  by_cases h1 : (decDigitsBE n).length < (decDigitsBE m).length
  · rw [if_pos h1]
    exact (decide_eq_true (decDigitsBE_length_lt n m h1)).symm
  · rw [if_neg h1]
    by_cases h2 : (decDigitsBE m).length < (decDigitsBE n).length
    · rw [if_pos h2]
      have := decDigitsBE_length_lt m n h2
      symm
      simp only [decide_eq_false_iff_not]
      omega
    · rw [if_neg h2,
        CSLP_correct (decDigitsBE m) (decDigitsBE n) (by omega)
          (decDigitsBE_lt10 m) (decDigitsBE_lt10 n),
        decDigitsBE_val, decDigitsBE_val]
      by_cases hnm : n < m
      · rw [if_pos (if_pos hnm ▸ rfl)]
        · exact (decide_eq_true hnm).symm
      · rw [if_neg hnm]
        have hne : (if m = n then (0 : Int) else -1) ≠ 1 := by
          split_ifs <;> omega
        rw [if_neg hne]
        symm
        simpa using hnm

theorem toDecString_head (n : Nat) :
    ∃ c rest, toDecString n = c :: rest ∧ c ≠ '-' := by
  unfold toDecString
  have h10 := decDigitsBE_lt10 n
  match hBE : decDigitsBE n with
  | [] => exact absurd hBE (decDigitsBE_ne_nil n)
  | d :: rest =>
    refine ⟨digitChar d, rest.map digitChar, by simp, ?_⟩
    exact digitChar_ne_minus d (h10 d (by rw [hBE]; simp))

theorem IsNegative_eq (n : Int) : IsNegative n = decide (n < 0) := by
  unfold IsNegative numToString
  by_cases hn : n < 0
  · rw [if_pos hn]
    simp [startsWithMinus, hn]
  · rw [if_neg hn]
    obtain ⟨c, rest, hc, hne⟩ := toDecString_head n.natAbs
    rw [hc]
    simp [startsWithMinus, hne, hn]

theorem AbsoluteString_eq (n : Int) : AbsoluteString n = toDecString n.natAbs := by
  unfold AbsoluteString numToString
  by_cases hn : n < 0
  · rw [if_pos hn]
    simp [stripMinus]
  · rw [if_neg hn]
    obtain ⟨c, rest, hc, hne⟩ := toDecString_head n.natAbs
    rw [hc]
    simp [stripMinus, hne]

theorem CompareFinite_correct (a b : Int) : CompareFinite a b = decide (b < a) := by
  unfold CompareFinite
  rw [IsNegative_eq, IsNegative_eq]
  by_cases ha : a < 0 <;> by_cases hb : b < 0 <;>
    simp only [ha, hb, decide_True, decide_False, AbsoluteString_eq, PSGT_dec]
  · rw [decide_eq_decide]
    omega
  · symm
    simp only [decide_eq_false_iff_not]
    omega
  · symm
    simp only [decide_eq_true_eq]
    omega
  · rw [decide_eq_decide]
    omega

theorem isGreaterThan_eq_decide (a b : Int) : IsGreaterThan a b = decide (b < a) :=
  CompareFinite_correct a b

/-- Claim C1: for every pair of finite integer number literals `A` and `B`,
`IsGreaterThan<A, B>` evaluates to `true` if and only if `A > B` as
integers.  The definitions it is stated over embed the digit-string
algorithm the claim describes: sign analysis in `CompareFinite`,
absolute-value strings with swapped operands for two negatives,
digit-count comparison (`IsLonger`) and first-differing-digit comparison
via the position in `'0123456789'` (`DigitGreaterThan`) for two
non-negatives. -/
theorem C1_isGreaterThan_iff (a b : Int) : IsGreaterThan a b = true ↔ a > b := by
  rw [isGreaterThan_eq_decide]
  simp [gt_iff_lt]

/-- Claim C9: the comparison family forms a strict order with consistent
derived relations: `IsGreaterThan<A, A>` is `false`; `LessThan<A, B>`
equals `IsGreaterThan<B, A>`; and `GreaterThanOrEqual<A, B>`
(respectively `LessThanOrEqual<A, B>`) is `true` exactly when `A` equals
`B` or the strict relation holds. -/
theorem C9_order_relations (a b : Int) :
    IsGreaterThan a a = false ∧
    LessThan a b = IsGreaterThan b a ∧
    (GreaterThanOrEqual a b = true ↔ a = b ∨ IsGreaterThan a b = true) ∧
    (LessThanOrEqual a b = true ↔ a = b ∨ LessThan a b = true) := by
  refine ⟨?_, rfl, ?_, ?_⟩
  · rw [isGreaterThan_eq_decide]
    simp
  · unfold GreaterThanOrEqual
    by_cases h : a = b <;> simp [h]
  · unfold LessThanOrEqual
    by_cases h : a = b <;> simp [h]

/-- Claim C2: `ValidateVersion<V, PrevVersion>` returns `V` exactly when
`V` is a specific numeric literal and either `PrevVersion` is `undefined`
(the first declared version) or `V` is strictly greater than
`PrevVersion`; the broad `number` type produces the
`specific numeric literal or static constant (e.g. 1, 2, 3, …)` message
and an ordering failure produces the interpolated
`integer greater than ${PrevVersion}` message. -/
theorem C2_validateVersion (n p : Int) (P : Option Int) :
    ValidateVersion .broad P =
      .strTy (cs "specific numeric literal or static constant (e.g. 1, 2, 3, …)") ∧
    ValidateVersion (.lit n) none = .numTy (.lit n) ∧
    ValidateVersion (.lit n) (some p) =
      (if n > p then .numTy (.lit n)
       else .strTy (cs "integer greater than " ++ numToString p)) ∧
    (∀ V : NumTy, ValidateVersion V P = .numTy V ↔
      ∃ m, V = .lit m ∧ (P = none ∨ ∃ q, P = some q ∧ m > q)) := by
  refine ⟨rfl, rfl, ?_, ?_⟩
  · show (if IsGreaterThan n p = true then _ else _) = _
    rw [isGreaterThan_eq_decide]
    by_cases h : p < n
    · rw [if_pos (by simpa using h), if_pos (by exact h)]
    · rw [if_neg (by simpa using h), if_neg (by exact h)]
  · intro V
    match V with
    | .broad => simp [ValidateVersion]
    | .lit m =>
      match P with
      | none => simp [ValidateVersion]
      | some q =>
        show (if IsGreaterThan m q = true then _ else _) = _ ↔ _
        rw [isGreaterThan_eq_decide]
        by_cases h : q < m
        · rw [if_pos (by simpa using h)]
          simp [h]
        · rw [if_neg (by simpa using h)]
          simp
          omega

theorem lookupA_cons {α : Type} (n : List Char) (v : α)
    (rest : List (List Char × α)) (k : List Char) :
    lookupA ((n, v) :: rest) k = if n = k then some v else lookupA rest k := rfl

theorem lookupA_append {α : Type} (A B : List (List Char × α)) (k : List Char) :
    lookupA (A ++ B) k =
      match lookupA A k with
      | some v => some v
      | none => lookupA B k := by
  induction A with
  | nil => simp [lookupA]
  | cons a A ih =>
    obtain ⟨n, v⟩ := a
    rw [List.cons_append, lookupA_cons, lookupA_cons]
    by_cases h : n = k
    · rw [if_pos h, if_pos h]
    · rw [if_neg h, if_neg h, ih]

theorem lookupA_mapUpdate_ne {α : Type} (S : List (List Char × α))
    (n : List Char) (v : α) (k : List Char) (hk : k ≠ n) :
    lookupA (S.map fun kv => if kv.1 = n then (kv.1, v) else kv) k =
      lookupA S k := by
  induction S with
  | nil => rfl
  | cons a S ih =>
    obtain ⟨k0, v0⟩ := a
    rw [List.map_cons]
    by_cases h0 : k0 = n
    · have hhead : (if (k0, v0).1 = n then ((k0, v0).1, v) else (k0, v0)) = (k0, v) :=
        if_pos h0
      rw [hhead, lookupA_cons, lookupA_cons]
      have hne : k0 ≠ k := by
        rw [h0]
        exact fun hc => hk hc.symm
      rw [if_neg hne, if_neg hne, ih]
    · have hhead : (if (k0, v0).1 = n then ((k0, v0).1, v) else (k0, v0)) = (k0, v0) :=
        if_neg h0
      rw [hhead, lookupA_cons, lookupA_cons]
      by_cases hk0 : k0 = k
      · rw [if_pos hk0, if_pos hk0]
      · rw [if_neg hk0, if_neg hk0, ih]

theorem lookupA_mapUpdate_eq {α : Type} (S : List (List Char × α))
    (n : List Char) (v : α) :
    lookupA (S.map fun kv => if kv.1 = n then (kv.1, v) else kv) n =
      (lookupA S n).map (fun _ => v) := by
  induction S with
  | nil => rfl
  | cons a S ih =>
    obtain ⟨k0, v0⟩ := a
    rw [List.map_cons]
    by_cases h0 : k0 = n
    · have hhead : (if (k0, v0).1 = n then ((k0, v0).1, v) else (k0, v0)) = (k0, v) :=
        if_pos h0
      rw [hhead, lookupA_cons, lookupA_cons, if_pos h0, if_pos h0]
      rfl
    · have hhead : (if (k0, v0).1 = n then ((k0, v0).1, v) else (k0, v0)) = (k0, v0) :=
        if_neg h0
      rw [hhead, lookupA_cons, lookupA_cons, if_neg h0, if_neg h0, ih]

theorem lookupA_eq_none_of_not_any {α : Type} (S : List (List Char × α))
    (k : List Char) (h : S.any (fun kv => decide (kv.1 = k)) = false) :
    lookupA S k = none := by
  induction S with
  | nil => rfl
  | cons a S ih =>
    obtain ⟨k0, v0⟩ := a
    simp only [List.any_cons, Bool.or_eq_false_iff] at h
    have h0 : k0 ≠ k := by simpa using h.1
    rw [lookupA_cons, if_neg h0]
    exact ih h.2

theorem lookupA_isSome_of_any {α : Type} (S : List (List Char × α))
    (k : List Char) (h : S.any (fun kv => decide (kv.1 = k)) = true) :
    ∃ w, lookupA S k = some w := by
  induction S with
  | nil => simp at h
  | cons a S ih =>
    obtain ⟨k0, v0⟩ := a
    by_cases h0 : k0 = k
    · exact ⟨v0, by rw [lookupA_cons, if_pos h0]⟩
    · simp only [List.any_cons] at h
      have h' : S.any (fun kv => decide (kv.1 = k)) = true := by
        rcases Bool.or_eq_true_iff.mp h with hc | hc
        · exact absurd (of_decide_eq_true hc) h0
        · exact hc
      obtain ⟨w, hw⟩ := ih h'
      exact ⟨w, by rw [lookupA_cons, if_neg h0, hw]⟩

/-- Claim C8: `UpdateStore<S, StoreName, NewStoreInfo>` changes only the
named store: the entry at `StoreName` is `NewStoreInfo`, every other key
reads back unchanged from `S`, and every key of the result is either
`StoreName` or a key of `S`. -/
theorem C8_updateStore {α : Type} (S : List (List Char × α)) (n : List Char) (v : α) :
    lookupA (UpdateStore S n v) n = some v ∧
    (∀ k, k ≠ n → lookupA (UpdateStore S n v) k = lookupA S k) ∧
    (∀ k, k ∈ (UpdateStore S n v).map Prod.fst → k = n ∨ k ∈ S.map Prod.fst) := by
  refine ⟨?_, ?_, ?_⟩
  · unfold UpdateStore
    by_cases hmem : S.any (fun kv => decide (kv.1 = n)) = true
    · rw [if_pos hmem, List.append_nil, lookupA_mapUpdate_eq]
      obtain ⟨w, hw⟩ := lookupA_isSome_of_any S n hmem
      rw [hw]
      rfl
    · have hfalse : S.any (fun kv => decide (kv.1 = n)) = false := by
        cases hb : S.any (fun kv => decide (kv.1 = n))
        · rfl
        · exact absurd hb hmem
      have hnone : lookupA S n = none :=
        lookupA_eq_none_of_not_any S n hfalse
      rw [if_neg hmem, lookupA_append, lookupA_mapUpdate_eq, hnone]
      simp [lookupA]
  · intro k hk
    unfold UpdateStore
    rw [lookupA_append, lookupA_mapUpdate_ne S n v k hk]
    cases hS : lookupA S k with
    | some w => rfl
    | none =>
      show lookupA (if _ then _ else _) k = _
      split
      · rfl
      · rw [lookupA_cons, if_neg (fun hc => hk hc.symm)]
        rfl
  · intro k hk
    unfold UpdateStore at hk
    rw [List.map_append, List.mem_append] at hk
    rcases hk with hk | hk
    · right
      simp only [List.map_map, List.mem_map, Function.comp] at hk ⊢
      obtain ⟨kv, hkv, hfst⟩ := hk
      refine ⟨kv, hkv, ?_⟩
      by_cases h : kv.1 = n
      · rw [if_pos h] at hfst
        exact hfst
      · rw [if_neg h] at hfst
        exact hfst
    · left
      split at hk <;> simp at hk
      exact hk

/-- Claim C4, amended: with `AutoIncrement` true a string path is
accepted exactly when `number` is assignable to the resolved type or the
resolved type is assignable to `number` (the source tests
`number extends R` and then `R extends number`, so supertypes of `number`
such as `number | string` are accepted too, not only `number` and its
subtypes); an `undefined` path is accepted, every tuple/widened-array
path is rejected with `never`; with `AutoIncrement` `false` or
`undefined` every path passes through. -/
theorem C4_validateAutoIncrementKey (T : Ty) (s : List Char)
    (es : List (List Char)) (p : PathTy) :
    (ValidateAutoIncrementKey T (.strPath s) (some true) = some (.strPath s) ↔
      numberExtendsRev (ResolveSingleKeyPath T s) = true ∨
        extendsNumber (ResolveSingleKeyPath T s) = true) ∧
    ValidateAutoIncrementKey T .undefined (some true) = some .undefined ∧
    ValidateAutoIncrementKey T (.tupPath es) (some true) = none ∧
    ValidateAutoIncrementKey T .widenedArr (some true) = none ∧
    ValidateAutoIncrementKey T p (some false) = some p ∧
    ValidateAutoIncrementKey T p none = some p := by
  refine ⟨?_, rfl, rfl, rfl, rfl, rfl⟩
  show (if numberExtendsRev (ResolveSingleKeyPath T s) = true then some (PathTy.strPath s)
    else if extendsNumber (ResolveSingleKeyPath T s) = true then some (PathTy.strPath s)
    else none) = some (PathTy.strPath s) ↔ _
  split_ifs with h1 h2
  · simp [h1]
  · simp [h1, h2]
  · simp [h1, h2]

/-- Claim C4 as stated fails on the code: for the value type
`{id: number | string}` with `autoIncrement: true` the path `'id'` is
accepted although the resolved type `number | string` is neither `number`
nor a subtype of `number` (`number` is merely assignable to it). -/
theorem C4_counterexample :
    ValidateAutoIncrementKey (Ty.obj [(cs "id", false, Ty.union Ty.num Ty.str)])
        (.strPath (cs "id")) (some true) = some (.strPath (cs "id")) ∧
    extendsNumber
      (ResolveSingleKeyPath (Ty.obj [(cs "id", false, Ty.union Ty.num Ty.str)])
        (cs "id")) = false := by
  constructor
  · simp [ValidateAutoIncrementKey, ResolveSingleKeyPath, breakDot,
      lookupMember, lookupA, numberExtendsRev, cs]
  · simp [ResolveSingleKeyPath, breakDot, lookupMember, lookupA,
      extendsNumber, cs]

theorem C8_updateStore_witness :
    lookupA (UpdateStore [(cs "users", 1), (cs "posts", 2)] (cs "posts") 7)
      (cs "posts") = some 7 ∧
    lookupA (UpdateStore [(cs "users", 1), (cs "posts", 2)] (cs "posts") 7)
      (cs "users") = lookupA [(cs "users", 1), (cs "posts", 2)] (cs "users") ∧
    (cs "users" = cs "posts" ∨
      cs "users" ∈ List.map Prod.fst [(cs "users", 1), (cs "posts", 2)]) :=
  ⟨(C8_updateStore [(cs "users", 1), (cs "posts", 2)] (cs "posts") 7).1,
   (C8_updateStore [(cs "users", 1), (cs "posts", 2)] (cs "posts") 7).2.1
     (cs "users") (by decide),
   (C8_updateStore [(cs "users", 1), (cs "posts", 2)] (cs "posts") 7).2.2
     (cs "users") (by decide)⟩

theorem breakDot_nil : breakDot [] = none := rfl

theorem splitSegs_ne_nil (p : List Char) : splitSegs p ≠ [] := by
  rw [splitSegs]
  split <;> simp

theorem splitSegs_nil : splitSegs [] = [[]] := by
  rw [splitSegs]
  rfl

theorem breakDot_ne_nil {p : List Char} {val} (h : breakDot p = some val) :
    p ≠ [] := by
  intro hp
  subst hp
  exact absurd h (by simp [breakDot])

theorem VSP_spec_nil (T : Ty) :
    ValidateStringPath T [] =
      if validPathSpec T (splitSegs []) = true then some [] else none := by
  rw [ValidateStringPath, splitSegs_nil]
  have h : validPathSpec T [[]] = anyMemberValidKey T := rfl
  show (if anyMemberValidKey T = true then some ([] : List Char) else none) =
    if validPathSpec T [[]] = true then some [] else none
  rw [h]

theorem VSP_eq_spec (T : Ty) (p : List Char) :
    ValidateStringPath T p =
      if validPathSpec T (splitSegs p) = true then some p else none := by
  have main : ∀ (n : Nat) (T : Ty) (p : List Char), p.length ≤ n →
      ValidateStringPath T p =
        if validPathSpec T (splitSegs p) = true then some p else none := by
    intro n
    induction n with
    | zero =>
      intro T p hp
      have hpe : p = [] := by
        cases p with
        | nil => rfl
        | cons c rest => simp at hp
      subst hpe
      exact VSP_spec_nil T
    | succ n ih =>
      intro T p hp
      by_cases hpe : p = []
      · subst hpe
        exact VSP_spec_nil T
      · rw [ValidateStringPath, splitSegs, if_neg hpe]
        cases hbd : breakDot p with
        | none =>
          show (match lookupMember T p with
            | some ty => if extendsIDBValidKey ty = true then some p else none
            | none => none) =
            if validPathSpec T [p] = true then some p else none
          cases hlk : lookupMember T p with
          | some ty =>
            have hspec : validPathSpec T [p] = extendsIDBValidKey ty := by
              simp [validPathSpec, hpe, hlk]
            rw [hspec]
          | none =>
            have hspec : validPathSpec T [p] = false := by
              simp [validPathSpec, hpe, hlk]
            rw [hspec]
            simp
        | some val =>
          obtain ⟨⟨first, rest⟩, hlt⟩ := val
          have hrest : rest.length ≤ n := by
            have hlt2 : rest.length < p.length := hlt
            omega
          obtain ⟨s0, segs, hsegs⟩ :
              ∃ s0 segs, splitSegs rest = s0 :: segs := by
            cases hs : splitSegs rest with
            | nil => exact absurd hs (splitSegs_ne_nil rest)
            | cons s0 segs => exact ⟨s0, segs, rfl⟩
          show (match lookupMember T first with
            | some ty =>
              match ValidateStringPath ty rest with
              | none => none
              | some _ => some p
            | none => none) =
            if validPathSpec T (first :: splitSegs rest) = true then some p
            else none
          cases hlk : lookupMember T first with
          | some ty =>
            have hspec : validPathSpec T (first :: splitSegs rest) =
                validPathSpec ty (splitSegs rest) := by
              rw [hsegs]
              simp [validPathSpec, hlk]
            show (match ValidateStringPath ty rest with
              | none => none
              | some _ => some p) =
              if validPathSpec T (first :: splitSegs rest) = true then some p
              else none
            rw [hspec, ih ty rest hrest]
            cases hv : validPathSpec ty (splitSegs rest) <;> simp [hv]
          | none =>
            have hspec : validPathSpec T (first :: splitSegs rest) = false := by
              rw [hsegs]
              simp [validPathSpec, hlk]
            rw [hspec]
            simp
  exact main p.length T p le_rfl

/-- Claim C3, amended: `ValidateKeyPath`/`ValidateStringPath` return the
path when it is valid and `never` (`none`) when it is not; the empty
string path is valid exactly when the distributive
`T extends IDBValidKey` test keeps at least one union member of `T`
(not, as the claim stated, when `T` as a whole is a valid IndexedDB
key); a path is valid exactly when its dot-separated segments satisfy
the claim's recursion (each segment in turn a property — for a union, a
common key — of the type reached so far, the final segment reaching a
valid IndexedDB key), captured by `validPathSpec`; `undefined` passes
through as `undefined`. -/
theorem C3_validateKeyPath (T : Ty) (p : List Char) :
    (ValidateStringPath T p = some p ∨ ValidateStringPath T p = none) ∧
    (ValidateStringPath T p = some p ↔ validPathSpec T (splitSegs p) = true) ∧
    (ValidateStringPath T [] = some [] ↔ anyMemberValidKey T = true) ∧
    ValidateKeyPath T .undefined = some .undefined ∧
    ValidateKeyPath T (.strPath p) =
      (ValidateStringPath T p).map (fun _ => PathTy.strPath p) := by
  have h := VSP_eq_spec T p
  have hnil := VSP_spec_nil T
  refine ⟨?_, ?_, ?_, rfl, ?_⟩
  · rw [h]
    split <;> simp
  · rw [h]
    cases hv : validPathSpec T (splitSegs p) <;> simp [hv]
  · rw [hnil, splitSegs_nil]
    have hspec : validPathSpec T [[]] = anyMemberValidKey T := rfl
    rw [hspec]
    cases hT : anyMemberValidKey T <;> simp [hT]
  · show (match ValidateStringPath T p with
      | some _ => some (PathTy.strPath p)
      | none => none) = _
    cases hV : ValidateStringPath T p <;> simp

/-- Claim C3 as stated fails on the code: for the value type
`string | boolean` the empty key path is accepted (the naked-parameter
test `T extends IDBValidKey` distributes over the union and the `string`
member survives) even though `string | boolean` as a whole is not a
valid IndexedDB key type. -/
theorem C3_counterexample :
    ValidateStringPath (Ty.union Ty.str Ty.boolean) [] = some [] ∧
    extendsIDBValidKey (Ty.union Ty.str Ty.boolean) = false := by
  constructor
  · rw [ValidateStringPath]
    decide
  · decide

theorem RSK_eq_follow (T : Ty) (p : List Char) :
    ResolveSingleKeyPath T p = followSegments T (splitSegs p) := by
  have main : ∀ (n : Nat) (T : Ty) (p : List Char), p.length ≤ n →
      ResolveSingleKeyPath T p = followSegments T (splitSegs p) := by
    intro n
    induction n with
    | zero =>
      intro T p hp
      have hpe : p = [] := by
        cases p with
        | nil => rfl
        | cons c rest => simp at hp
      subst hpe
      rw [ResolveSingleKeyPath, splitSegs_nil]
      show (match lookupMember T [] with
        | some ty => ty
        | none => Ty.never) = followSegments T [[]]
      cases hlk : lookupMember T [] with
      | some ty => simp [followSegments, hlk]
      | none => simp [followSegments, hlk]
    | succ n ih =>
      intro T p hp
      by_cases hpe : p = []
      · subst hpe
        rw [ResolveSingleKeyPath, splitSegs_nil]
        show (match lookupMember T [] with
          | some ty => ty
          | none => Ty.never) = followSegments T [[]]
        cases hlk : lookupMember T [] with
        | some ty => simp [followSegments, hlk]
        | none => simp [followSegments, hlk]
      · rw [ResolveSingleKeyPath, splitSegs]
        cases hbd : breakDot p with
        | none =>
          show (match lookupMember T p with
            | some ty => ty
            | none => Ty.never) = followSegments T [p]
          cases hlk : lookupMember T p with
          | some ty => simp [followSegments, hlk]
          | none => simp [followSegments, hlk]
        | some val =>
          obtain ⟨⟨first, rest⟩, hlt⟩ := val
          have hrest : rest.length ≤ n := by
            have hlt2 : rest.length < p.length := hlt
            omega
          show (match lookupMember T first with
            | some ty => ResolveSingleKeyPath ty rest
            | none => Ty.never) = followSegments T (first :: splitSegs rest)
          cases hlk : lookupMember T first with
          | some ty =>
            show ResolveSingleKeyPath ty rest =
              followSegments T (first :: splitSegs rest)
            rw [ih ty rest hrest]
            simp [followSegments, hlk]
          | none => simp [followSegments, hlk]
  exact main p.length T p le_rfl

theorem RAKP_map (T : Ty) (es : List (List Char)) :
    ResolveArrayKeyPath T es = es.map (fun q => ResolveSingleKeyPath T q) := by
  induction es with
  | nil => rfl
  | cons f rest ih =>
    show ResolveSingleKeyPath T f :: ResolveArrayKeyPath T rest = _
    rw [ih, List.map_cons]

/-- Claim C6: `ResolveKeyPath<T, Path>` returns `IDBValidKey` for an
`undefined` path; a string path resolves to the type obtained by
following each dot-separated segment through `T` (`never` as soon as a
segment is not a property of the type reached so far); a tuple path
resolves to the tuple of the types each individual path resolves to, in
order. -/
theorem C6_resolveKeyPath (T : Ty) (s : List Char) (es : List (List Char)) :
    ResolveKeyPath T .undefined = .idbKey ∧
    ResolveKeyPath T (.strPath s) = followSegments T (splitSegs s) ∧
    ResolveKeyPath T (.tupPath es) =
      .tuple (es.map (fun q => ResolveSingleKeyPath T q)) := by
  refine ⟨rfl, RSK_eq_follow T s, ?_⟩
  show Ty.tuple (ResolveArrayKeyPath T es) = _
  rw [RAKP_map]

theorem VAPT_unfold (T OriginalT : Ty) (first : List Char)
    (rest : List (List Char)) :
    ValidateArrayPathTuple T OriginalT (first :: rest) =
      (match breakDot first with
       | some ⟨(k, nested), _⟩ =>
         match lookupMember T k with
         | some ty =>
           match ValidateStringPath ty nested with
           | none => none
           | some _ =>
             match rest with
             | [] => some (first :: rest)
             | _ :: _ =>
               match ValidateArrayPathTuple OriginalT OriginalT rest with
               | none => none
               | some _ => some (first :: rest)
         | none => none
       | none =>
         match lookupMember T first with
         | some ty =>
           if extendsIDBValidKey ty then
             match rest with
             | [] => some (first :: rest)
             | _ :: _ =>
               match ValidateArrayPathTuple OriginalT OriginalT rest with
               | none => none
               | some _ => some (first :: rest)
           else none
         | none => none) := rfl

theorem VAPT_eq (T : Ty) : ∀ (es : List (List Char)), es ≠ [] →
    ValidateArrayPathTuple T T es =
      if es.all (fun e => elementOk T e) = true then some es else none := by
  intro es
  induction es with
  | nil => intro h; exact absurd rfl h
  | cons e rest ih =>
    intro _
    rw [VAPT_unfold]
    cases hbd : breakDot e with
    | some val =>
      obtain ⟨⟨k, nested⟩, hk⟩ := val
      show (match lookupMember T k with
        | some ty =>
          match ValidateStringPath ty nested with
          | none => none
          | some _ =>
            match rest with
            | [] => some (e :: rest)
            | _ :: _ =>
              match ValidateArrayPathTuple T T rest with
              | none => none
              | some _ => some (e :: rest)
        | none => none) = _
      cases hlk : lookupMember T k with
      | none =>
        have hel : elementOk T e = false := by
          simp [elementOk, hbd, hlk]
        simp [List.all_cons, hel]
      | some ty =>
        show (match ValidateStringPath ty nested with
          | none => none
          | some _ =>
            match rest with
            | [] => some (e :: rest)
            | _ :: _ =>
              match ValidateArrayPathTuple T T rest with
              | none => none
              | some _ => some (e :: rest)) = _
        cases hv : ValidateStringPath ty nested with
        | none =>
          have hel : elementOk T e = false := by
            simp [elementOk, hbd, hlk, hv]
          simp [List.all_cons, hel]
        | some w =>
          have hel : elementOk T e = true := by
            simp [elementOk, hbd, hlk, hv]
          cases rest with
          | nil => simp [List.all_cons, hel]
          | cons r0 rs =>
            have hrec := ih (by simp)
            show (match ValidateArrayPathTuple T T (r0 :: rs) with
              | none => none
              | some _ => some (e :: r0 :: rs)) = _
            rw [hrec]
            cases hall : (r0 :: rs).all (fun x => elementOk T x) with
            | true => simp [List.all_cons, hel, hall]
            | false => simp [List.all_cons, hel, hall]
    | none =>
      show (match lookupMember T e with
        | some ty =>
          if extendsIDBValidKey ty then
            match rest with
            | [] => some (e :: rest)
            | _ :: _ =>
              match ValidateArrayPathTuple T T rest with
              | none => none
              | some _ => some (e :: rest)
          else none
        | none => none) = _
      cases hlk : lookupMember T e with
      | none =>
        have hel : elementOk T e = false := by
          simp [elementOk, hbd, hlk]
        simp [List.all_cons, hel]
      | some ty =>
        cases hE : extendsIDBValidKey ty with
        | false =>
          have hel : elementOk T e = false := by
            simp [elementOk, hbd, hlk, hE]
          simp [List.all_cons, hel, hE]
        | true =>
          have hel : elementOk T e = true := by
            simp [elementOk, hbd, hlk, hE]
          cases rest with
          | nil => simp [List.all_cons, hel, hE]
          | cons r0 rs =>
            have hrec := ih (by simp)
            show (if extendsIDBValidKey ty = true then
                match ValidateArrayPathTuple T T (r0 :: rs) with
                | none => none
                | some _ => some (e :: r0 :: rs)
              else none) = _
            rw [hE, if_pos rfl, hrec]
            cases hall : (r0 :: rs).all (fun x => elementOk T x) with
            | true => simp [List.all_cons, hel, hall]
            | false => simp [List.all_cons, hel, hall]

/-- Claim C10: array key-path validation is not complete at the public
interface: `ValidateKeyPath` accepts the widened `readonly string[]`
unchanged with no element checks for every `T`, accepts the empty tuple
for every `T`, and performs element-wise validation (each element a
property of the original type resolving to a valid IndexedDB key, dotted
elements resolved segment by segment — `elementOk`) only for nonempty
literal tuple paths. -/
theorem C10_arrayPathValidation (T : Ty) (es : List (List Char)) :
    ValidateKeyPath T .widenedArr = some .widenedArr ∧
    ValidateKeyPath T (.tupPath []) = some (.tupPath []) ∧
    (es ≠ [] →
      (ValidateKeyPath T (.tupPath es) = some (.tupPath es) ↔
        ∀ e ∈ es, elementOk T e = true)) := by
  refine ⟨rfl, rfl, ?_⟩
  intro hne
  show (match ValidateArrayPathTuple T T es with
    | some _ => some (PathTy.tupPath es)
    | none => none) = some (PathTy.tupPath es) ↔ _
  rw [VAPT_eq T es hne]
  cases hall : es.all (fun e => elementOk T e) with
  | true =>
    simp only [List.all_eq_true] at hall
    simp only [Option.some.injEq]
    constructor
    · intro _
      exact hall
    · intro _
      rfl
  | false =>
    constructor
    · intro hc
      simp at hc
    · intro hforall
      have hco : es.all (fun e => elementOk T e) = true :=
        List.all_eq_true.mpr hforall
      rw [hco] at hall
      simp at hall

theorem C10_arrayPathValidation_witness :
    ([cs "id"] ≠ ([] : List (List Char))) ∧
    (ValidateKeyPath (Ty.obj [(cs "id", false, Ty.str)])
        (.tupPath [cs "id"]) = some (.tupPath [cs "id"]) ↔
      ∀ e ∈ [cs "id"], elementOk (Ty.obj [(cs "id", false, Ty.str)]) e = true) :=
  ⟨by decide,
   (C10_arrayPathValidation (Ty.obj [(cs "id", false, Ty.str)])
     [cs "id"]).2.2 (by decide)⟩

theorem lookupA_filter_keep {α : Type} (m : List (List Char × α))
    (P : List Char × α → Bool) (k : List Char)
    (h : ∀ f ∈ m, f.1 = k → P f = true) :
    lookupA (m.filter P) k = lookupA m k := by
  induction m with
  | nil => rfl
  | cons f m ih =>
    obtain ⟨n, v⟩ := f
    have h' : ∀ g ∈ m, g.1 = k → P g = true :=
      fun g hg => h g (by simp [hg])
    by_cases hn : n = k
    · have hP : P (n, v) = true := h (n, v) (by simp) hn
      rw [List.filter_cons_of_pos hP, lookupA_cons, lookupA_cons,
        if_pos hn, if_pos hn]
    · cases hP : P (n, v) with
      | true =>
        rw [List.filter_cons_of_pos hP, lookupA_cons, lookupA_cons,
          if_neg hn, if_neg hn]
        exact ih h'
      | false =>
        rw [List.filter_cons_of_neg (by simp [hP]), lookupA_cons, if_neg hn]
        exact ih h'

theorem lookupA_filter_drop {α : Type} (m : List (List Char × α))
    (P : List Char × α → Bool) (k : List Char)
    (h : ∀ f ∈ m, f.1 = k → P f = false) :
    lookupA (m.filter P) k = none := by
  induction m with
  | nil => rfl
  | cons f m ih =>
    obtain ⟨n, v⟩ := f
    have h' : ∀ g ∈ m, g.1 = k → P g = false :=
      fun g hg => h g (by simp [hg])
    by_cases hn : n = k
    · have hP : P (n, v) = false := h (n, v) (by simp) hn
      rw [List.filter_cons_of_neg (by simp [hP])]
      exact ih h'
    · cases hP : P (n, v) with
      | true =>
        rw [List.filter_cons_of_pos hP, lookupA_cons, if_neg hn]
        exact ih h'
      | false =>
        rw [List.filter_cons_of_neg (by simp [hP])]
        exact ih h'

theorem any_of_lookupA_some {α : Type} (l : List (List Char × α))
    (k : List Char) (c : α) (h : lookupA l k = some c) :
    l.any (fun kc => decide (kc.1 = k)) = true := by
  induction l with
  | nil => simp [lookupA] at h
  | cons f l ih =>
    obtain ⟨n, v⟩ := f
    rw [lookupA_cons] at h
    by_cases hn : n = k
    · simp [hn]
    · rw [if_neg hn] at h
      simp [ih h]

theorem lookupA_mapKeys {β : Type} (keys : List (List Char)) (k : List Char)
    (g : List Char → β) :
    lookupA (keys.map (fun q => (q, g q))) k =
      if k ∈ keys then some (g k) else none := by
  induction keys with
  | nil => simp [lookupA]
  | cons q qs ih =>
    rw [List.map_cons, lookupA_cons]
    by_cases hq : q = k
    · rw [if_pos hq, hq, if_pos (by simp)]
    · rw [if_neg hq, ih]
      by_cases hm : k ∈ qs
      · rw [if_pos hm, if_pos (by simp [hm])]
      · rw [if_neg hm, if_neg ?_]
        simp only [List.mem_cons, not_or]
        exact ⟨fun hc => hq hc.symm, hm⟩

theorem lookupA_unique {α : Type} (l : List (List Char × α)) (k : List Char)
    (c : α) (hnodup : (l.map Prod.fst).Nodup) (h : lookupA l k = some c) :
    ∀ kc ∈ l, kc.1 = k → kc.2 = c := by
  induction l with
  | nil => simp
  | cons f l ih =>
    obtain ⟨n, v⟩ := f
    rw [List.map_cons, List.nodup_cons] at hnodup
    rw [lookupA_cons] at h
    intro kc hkc hk
    by_cases hn : n = k
    · rw [if_pos hn] at h
      rcases List.mem_cons.mp hkc with hkc | hkc
      · rw [hkc]
        simpa using h
      · exfalso
        apply hnodup.1
        rw [List.mem_map]
        exact ⟨kc, hkc, by rw [hk, hn]⟩
    · rw [if_neg hn] at h
      rcases List.mem_cons.mp hkc with hkc | hkc
      · exfalso
        apply hn
        rw [hkc] at hk
        exact hk
      · exact ih hnodup.2 h kc hkc hk

theorem lookupA_mem {α : Type} (l : List (List Char × α)) (k : List Char)
    (c : α) (h : lookupA l k = some c) : (k, c) ∈ l := by
  induction l with
  | nil => simp [lookupA] at h
  | cons f l ih =>
    obtain ⟨n, v⟩ := f
    rw [lookupA_cons] at h
    by_cases hn : n = k
    · rw [if_pos hn] at h
      subst hn
      have hv : v = c := by simpa using h
      subst hv
      simp
    · rw [if_neg hn] at h
      exact List.mem_cons.mpr (Or.inr (ih h))

theorem lookupA_append_none {α : Type} {A B : List (List Char × α)}
    {k : List Char} (h : lookupA A k = none) :
    lookupA (A ++ B) k = lookupA B k := by
  rw [lookupA_append, h]

theorem lookupA_append_some {α : Type} {A B : List (List Char × α)}
    {k : List Char} {w : α} (h : lookupA A k = some w) :
    lookupA (A ++ B) k = some w := by
  rw [lookupA_append, h]

theorem mem_reqKeys_iff (changes : List (List Char × ChangeVal))
    (k : List Char) :
    k ∈ RequiredKeysChanges changes ↔
      ∃ kc ∈ changes, kc.1 = k ∧ changeIsOptional kc.2 = false := by
  simp only [RequiredKeysChanges, List.mem_map, List.mem_filter,
    Bool.not_eq_true']
  constructor
  · rintro ⟨kc, ⟨hkc, hop⟩, hk⟩
    exact ⟨kc, hkc, hk, hop⟩
  · rintro ⟨kc, hkc, hk, hop⟩
    exact ⟨kc, ⟨hkc, hop⟩, hk⟩

theorem mem_optKeys_iff (changes : List (List Char × ChangeVal))
    (k : List Char) :
    k ∈ OptionalKeysChanges changes ↔
      ∃ kc ∈ changes, kc.1 = k ∧ changeIsOptional kc.2 = true := by
  simp only [OptionalKeysChanges, List.mem_map, List.mem_filter]
  constructor
  · rintro ⟨kc, ⟨hkc, hop⟩, hk⟩
    exact ⟨kc, hkc, hk, hop⟩
  · rintro ⟨kc, hkc, hk, hop⟩
    exact ⟨kc, ⟨hkc, hop⟩, hk⟩

theorem mappedChangeFields_lookup (changes : List (List Char × ChangeVal))
    (keys : List (List Char)) (flag : Bool) (k : List Char) :
    lookupA (mappedChangeFields changes keys flag) k =
      if k ∈ keys then
        some (flag,
          match lookupA changes k with
          | some c => InferZodType c
          | none => Ty.never)
      else none := by
  show lookupA (keys.map (fun q =>
    (q, ((flag,
      match lookupA changes q with
      | some c => InferZodType c
      | none => Ty.never) : Bool × Ty)))) k = _
  rw [lookupA_mapKeys]

/-- Claim C7: `MergeSchemaChanges<T, Changes>` distributes over the
members of the (possibly union) type `T` and, for each member, every key
named in `Changes` whose (possibly function-returned) Zod schema is
optional becomes an optional property of the inferred type, every key
with a non-optional schema becomes a required property of the inferred
type, and every property of the member not named in `Changes` keeps its
original type and optionality unchanged. -/
theorem C7_mergeSchemaChanges (T : List (List (List Char × Bool × Ty)))
    (m : List (List Char × Bool × Ty))
    (changes : List (List Char × ChangeVal))
    (hnodup : (changes.map Prod.fst).Nodup) :
    MergeSchemaChanges T changes =
      T.map (fun mm => MergeSchemaChangesMember mm changes) ∧
    (∀ k c, lookupA changes k = some c →
      lookupA (MergeSchemaChangesMember m changes) k =
        some (changeIsOptional c, InferZodType c)) ∧
    (∀ k, lookupA changes k = none →
      lookupA (MergeSchemaChangesMember m changes) k = lookupA m k) := by
  refine ⟨rfl, ?_, ?_⟩
  · intro k c hc
    have hhas : changesHasKey changes k = true :=
      any_of_lookupA_some changes k c hc
    have hfilter :
        lookupA (m.filter (fun f => !changesHasKey changes f.1)) k = none :=
      lookupA_filter_drop m _ k (fun f _ hf => by rw [hf, hhas]; rfl)
    have huniq := lookupA_unique changes k c hnodup hc
    have hmem : (k, c) ∈ changes := lookupA_mem changes k c hc
    show lookupA (m.filter (fun f => !changesHasKey changes f.1) ++
      mappedChangeFields changes (RequiredKeysChanges changes) false ++
      mappedChangeFields changes (OptionalKeysChanges changes) true) k = _
    rw [List.append_assoc, lookupA_append_none hfilter]
    cases hco : changeIsOptional c with
    | false =>
      have hkreq : k ∈ RequiredKeysChanges changes :=
        (mem_reqKeys_iff changes k).mpr ⟨(k, c), hmem, rfl, hco⟩
      have hreq : lookupA
          (mappedChangeFields changes (RequiredKeysChanges changes) false) k =
          some (false, InferZodType c) := by
        rw [mappedChangeFields_lookup, if_pos hkreq, hc]
      rw [lookupA_append_some hreq]
    | true =>
      have hknotreq : k ∉ RequiredKeysChanges changes := by
        intro hk
        obtain ⟨kc, hkc, hk1, hk2⟩ := (mem_reqKeys_iff changes k).mp hk
        rw [huniq kc hkc hk1] at hk2
        rw [hco] at hk2
        simp at hk2
      have hkopt : k ∈ OptionalKeysChanges changes :=
        (mem_optKeys_iff changes k).mpr ⟨(k, c), hmem, rfl, hco⟩
      have hreq : lookupA
          (mappedChangeFields changes (RequiredKeysChanges changes) false) k =
          none := by
        rw [mappedChangeFields_lookup, if_neg hknotreq]
      have hopt : lookupA
          (mappedChangeFields changes (OptionalKeysChanges changes) true) k =
          some (true, InferZodType c) := by
        rw [mappedChangeFields_lookup, if_pos hkopt, hc]
      rw [lookupA_append_none hreq, hopt]
  · intro k hc
    have hhas : changesHasKey changes k = false := by
      cases hany : changesHasKey changes k with
      | false => rfl
      | true =>
        obtain ⟨w, hw⟩ := lookupA_isSome_of_any changes k hany
        rw [hw] at hc
        simp at hc
    have hfilter :
        lookupA (m.filter (fun f => !changesHasKey changes f.1)) k =
          lookupA m k :=
      lookupA_filter_keep m _ k (fun f _ hf => by rw [hf, hhas]; rfl)
    have hknotreq : k ∉ RequiredKeysChanges changes := by
      intro hk
      obtain ⟨kc, hkc, hk1, _⟩ := (mem_reqKeys_iff changes k).mp hk
      have : changes.any (fun kc => decide (kc.1 = k)) = true := by
        rw [List.any_eq_true]
        exact ⟨kc, hkc, by simp [hk1]⟩
      obtain ⟨w, hw⟩ := lookupA_isSome_of_any changes k this
      rw [hw] at hc
      simp at hc
    have hknotopt : k ∉ OptionalKeysChanges changes := by
      intro hk
      obtain ⟨kc, hkc, hk1, _⟩ := (mem_optKeys_iff changes k).mp hk
      have : changes.any (fun kc => decide (kc.1 = k)) = true := by
        rw [List.any_eq_true]
        exact ⟨kc, hkc, by simp [hk1]⟩
      obtain ⟨w, hw⟩ := lookupA_isSome_of_any changes k this
      rw [hw] at hc
      simp at hc
    have hreq : lookupA
        (mappedChangeFields changes (RequiredKeysChanges changes) false) k =
        none := by
      rw [mappedChangeFields_lookup, if_neg hknotreq]
    have hopt : lookupA
        (mappedChangeFields changes (OptionalKeysChanges changes) true) k =
        none := by
      rw [mappedChangeFields_lookup, if_neg hknotopt]
    show lookupA (m.filter (fun f => !changesHasKey changes f.1) ++
      mappedChangeFields changes (RequiredKeysChanges changes) false ++
      mappedChangeFields changes (OptionalKeysChanges changes) true) k = _
    cases hmk : lookupA m k with
    | some w =>
      rw [List.append_assoc,
        lookupA_append_some (hfilter.trans hmk)]
    | none =>
      rw [List.append_assoc, lookupA_append_none (hfilter.trans hmk),
        lookupA_append_none hreq, hopt]

theorem C7_mergeSchemaChanges_witness :
    (([(cs "age", ChangeVal.schema (Zod.zodOptional (Zod.base Ty.num))),
       (cs "name", ChangeVal.schema (Zod.base Ty.str))].map Prod.fst).Nodup) ∧
    lookupA
      (MergeSchemaChangesMember
        [(cs "id", false, Ty.str), (cs "age", false, Ty.num)]
        [(cs "age", ChangeVal.schema (Zod.zodOptional (Zod.base Ty.num))),
         (cs "name", ChangeVal.schema (Zod.base Ty.str))]) (cs "age") =
      some (changeIsOptional (ChangeVal.schema (Zod.zodOptional (Zod.base Ty.num))),
        InferZodType (ChangeVal.schema (Zod.zodOptional (Zod.base Ty.num)))) ∧
    lookupA
      (MergeSchemaChangesMember
        [(cs "id", false, Ty.str), (cs "age", false, Ty.num)]
        [(cs "age", ChangeVal.schema (Zod.zodOptional (Zod.base Ty.num))),
         (cs "name", ChangeVal.schema (Zod.base Ty.str))]) (cs "id") =
      lookupA [(cs "id", false, Ty.str), (cs "age", false, Ty.num)] (cs "id") :=
  ⟨by decide,
   (C7_mergeSchemaChanges []
     [(cs "id", false, Ty.str), (cs "age", false, Ty.num)]
     [(cs "age", ChangeVal.schema (Zod.zodOptional (Zod.base Ty.num))),
      (cs "name", ChangeVal.schema (Zod.base Ty.str))]
     (by decide)).2.1 (cs "age") _ rfl,
   (C7_mergeSchemaChanges []
     [(cs "id", false, Ty.str), (cs "age", false, Ty.num)]
     [(cs "age", ChangeVal.schema (Zod.zodOptional (Zod.base Ty.num))),
      (cs "name", ChangeVal.schema (Zod.base Ty.str))]
     (by decide)).2.2 (cs "id") rfl⟩


end Typedex
